import Mathlib

/-!
Shallow embedding of the core search engine of the Glasgow subgraph solver
(src/src/homomorphism_searcher.cc): the restart-capable recursive search
(`restarting_search`), the propagation kernel (`propagate`,
`propagate_simple_constraints`, `propagate_less_thans`), branching
(`find_branch_domain`, `degree_sort`, `softmax_shuffle`) and nogood posting
(`post_nogood`, `post_solution_nogood`,
`copy_nonfixed_domains_and_make_assignment`).

Modelling conventions:
* bitsets over target vertices are modelled as `List Nat` of members
  (`find_first` = least member, the last-set scan = greatest member,
  `count()` = length);
* the trail (`HomomorphismAssignments`) is a `List TrailEntry` growing at the
  end (`push_back` = append, `resize` to a smaller size = `List.take`);
* recursion is fueled (the C++ recursion depth is bounded by the pattern
  size); out of fuel gives `none`;
* collaborators that live outside this translation unit (the model degree
  and adjacency queries, the lackey oracle, the watch store firing
  behaviour, `cheap_all_different`, `std::shuffle`, the restart schedule and
  the timeout) are abstract function parameters;
* the proof logger only emits log output and never influences the search
  state, so its calls are omitted.
-/

namespace GSS

/-- An assignment of a pattern vertex to a target vertex
(`HomomorphismAssignment`). -/
structure Assignment where
  pv : Nat
  tv : Nat
deriving DecidableEq, Repr

/-- One trail entry (`HomomorphismAssignments::values` element). -/
structure TrailEntry where
  a : Assignment
  is_decision : Bool
  discrepancy_count : Int
  choice_count : Int
deriving DecidableEq, Repr

/-- One `HomomorphismDomain`: the still-possible target vertices for pattern
vertex `v`.  `values` is the bitset of target vertices (as a member list),
`count` its stored cardinality, `fixed` whether the domain is committed. -/
structure HDomain where
  v : Nat
  values : List Nat
  count : Nat
  fixed : Bool
deriving DecidableEq, Repr, Inhabited

inductive SearchResult where
  | Aborted
  | Unsatisfiable
  | UnsatisfiableAndBackjumpUsingLackey
  | Satisfiable
  | SatisfiableButKeepGoing
  | Restart
deriving DecidableEq, Repr

inductive Injectivity where
  | Injective
  | LocallyInjective
  | NonInjective
deriving DecidableEq, Repr

inductive ValueOrdering where
  | Degree
  | AntiDegree
  | Biased
  | Random
deriving DecidableEq, Repr

inductive PropagateUsingLackey where
  | Never
  | Always
  | Root
  | RootAndBackjump
deriving DecidableEq, Repr

/-- Record of one `lackey->check_solution` invocation made by `propagate`
(observable trace for the lackey phase): the mapping passed, the
`partial` and `count` flags, and whether a (non-null) deletion callback
was supplied. -/
structure LackeyCall where
  mapping : List (Nat × Nat)
  partialFlag : Bool
  countFlag : Bool
  withDeletion : Bool
deriving DecidableEq, Repr

/-- Modelled from the spec: the external lackey oracle.  `check mapping
partialFlag countFlag` returns the sequence of deletion requests `(p, t)` it
would issue through the deletion callback (ignored when no callback is
passed) together with its accept/reject verdict.  The real oracle is out of
scope of src/; only its interface (§6 of the spec) is used here. -/
structure Lackey where
  check : List (Nat × Nat) → Bool → Bool → List (Nat × Nat) × Bool

/-- The searcher configuration together with the abstract external
collaborators (model queries, restart schedule, timeout, lackey, watch-store
firing, `cheap_all_different`, `std::shuffle`, the RNG). -/
structure SParams where
  patternSize : Nat
  targetSize : Nat
  injectivity : Injectivity
  induced : Bool
  bigraph : Bool
  countSolutions : Bool
  valueOrdering : ValueOrdering
  propagateUsingLackey : PropagateUsingLackey
  sendPartialsToLackey : Bool
  enumerate : Bool
  mightHaveWatches : Bool
  lackey : Option Lackey
  -- model queries (external, immutable)
  patternDegree : Nat → Nat → Nat
  targetDegree : Nat → Nat → Nat
  largestTargetDegree : Nat
  maxGraphs : Nat
  directed : Bool
  hasEdgeLabels : Bool
  hasLessThans : Bool
  patternAdjBits : Nat → Nat → Nat
  targetGraphRow : Nat → Nat → Nat → Bool
  forwardTargetGraphRow : Nat → Nat → Bool
  reverseTargetGraphRow : Nat → Nat → Bool
  patternGraphRow : Nat → Nat → Nat → Bool
  patternEdgeLabel : Nat → Nat → Nat
  targetEdgeLabel : Nat → Nat → Nat
  lessThans : List (Nat × Nat)
  patternLinkCount : Nat
  checkExtraBigraph : List (Nat × Nat) → Bool
  -- Modelled from the spec: the should_abort probe of the timeout collaborator,
  -- as a function of how many probes happened before.
  abortSeq : Nat → Bool
  -- Modelled from the spec: the restart schedule (did_a_backtrack /
  -- should_restart) over an abstract Nat-valued schedule state.
  rsDidBacktrack : Nat → Nat
  rsShouldRestart : Nat → Bool
  -- Modelled from the spec: the firing behaviour of `watches.propagate` (the
  -- Watches store is external to src/): given the current assignment, the
  -- trail and the posted nogoods, the unit literals fired via on_unit.
  watchesFire : Assignment → List TrailEntry → List (List Assignment) → List Assignment
  -- Modelled from the spec: `cheap_all_different` (external helper); a sound
  -- filter returning the pruned domains, or `none` on a Hall violation.
  cheapAllDifferent : List HDomain → Option (List HDomain)
  -- Modelled from the spec: `std::shuffle` with the global RNG at a given
  -- RNG position (uniform shuffle; any permutation-producing function).
  stdShuffle : Nat → List Nat → List Nat
  -- Modelled from the spec: one draw of `uniform_int_distribution(1, total)`
  -- at a given RNG position.
  rngStream : Nat → Int → Int

/-- The mutable state threaded through `restarting_search`: the trail, the
`nodes` / `propagations` / `solution_count` counters, the RNG position, the
nogood store contents, the restart-schedule state and the timeout-probe
counter. -/
structure SState where
  trail : List TrailEntry
  nodes : Nat
  propagations : Nat
  solutionCount : Nat
  rng : Nat
  nogoods : List (List Assignment)
  rsState : Nat
  time : Nat
deriving DecidableEq, Repr

/-! ## Small helpers over the bitset-as-list representation -/

/-- Least member of a value list: `values.find_first()` on the bitset. -/
def list_min : List Nat → Option Nat
  | [] => none
  | x :: xs =>
    match list_min xs with
    | none => some x
    | some m => some (min x m)

/-- Greatest member of a value list: the source loop of repeated `find_first`
extraction into a scratch copy, which computes the highest set bit. -/
def list_max : List Nat → Option Nat
  | [] => none
  | x :: xs =>
    match list_max xs with
    | none => some x
    | some m => some (max x m)

/-- Insert into an ascending list (used to snapshot the members of a bitset in
`find_first` order). -/
def insert_asc (x : Nat) : List Nat → List Nat
  | [] => [x]
  | y :: ys => if x ≤ y then x :: y :: ys else y :: insert_asc x ys

/-- The members of a value list in ascending order: the `find_first` /
`reset` extraction loop that fills `branch_v`. -/
def sort_asc : List Nat → List Nat
  | [] => []
  | x :: xs => insert_asc x (sort_asc xs)

/-! ## Trail and nogood helpers -/

/-- The decision literals currently on the trail (the loop bodies of
`post_nogood` and `assignments_as_proof_decisions`). -/
def decisions_of (trail : List TrailEntry) : List Assignment :=
  (trail.filter (·.is_decision)).map (·.a)

/-- Translation of `std::map::emplace` into a vertex-to-vertex mapping: ordered by key,
first insertion wins. -/
def vtv_emplace (m : List (Nat × Nat)) (pv tv : Nat) : List (Nat × Nat) :=
  match m with
  | [] => [(pv, tv)]
  | (k, w) :: rest =>
    if pv < k then (pv, tv) :: (k, w) :: rest
    else if pv = k then (k, w) :: rest
    else (k, w) :: vtv_emplace rest pv tv

/-- Translation of `expand_to_full_result`: build the vertex-to-vertex mapping from the
trail (an ordered map, first `emplace` per pattern vertex wins). -/
def expand_to_full_result (trail : List TrailEntry) : List (Nat × Nat) :=
  trail.foldl (fun m e => vtv_emplace m e.a.pv e.a.tv) []

/-- Translation of `post_nogood`: if the watch store may exist, collect every decision on
the trail into one nogood and add it to the store. -/
def post_nogood (p : SParams) (trail : List TrailEntry)
    (nogoods : List (List Assignment)) : List (List Assignment) :=
  if p.mightHaveWatches then nogoods ++ [decisions_of trail] else nogoods

/-- Translation of `post_solution_nogood`: collect every decision whose pattern vertex is
below `pattern_size - pattern_link_count` into one nogood and add it to the
store (no `might_have_watches` guard in the source). -/
def post_solution_nogood (p : SParams) (trail : List TrailEntry)
    (nogoods : List (List Assignment)) : List (List Assignment) :=
  nogoods ++
    [(trail.filter
        (fun e => e.is_decision && decide (e.a.pv < p.patternSize - p.patternLinkCount))).map (·.a)]

/-- Lines 200–211 of the source: on a `Restart` bubbling up, for each value
`l` already tried at this branch, transiently push the decision
`{(v, l), true, -2, -2}`, post a nogood, and pop it again.  Only the nogood
store changes. -/
def post_nogoods_for_tried (p : SParams) (v : Nat) (tried : List Nat)
    (trail : List TrailEntry) (nogoods : List (List Assignment)) :
    List (List Assignment) :=
  tried.foldl
    (fun ngs l => post_nogood p (trail ++ [⟨⟨v, l⟩, true, -2, -2⟩]) ngs)
    nogoods

/-! ## Branching -/

/-- Translation of `copy_nonfixed_domains_and_make_assignment`: copy the non-fixed domains
in order; the one for `branch_v` becomes the singleton `{f_v}`. -/
def copy_nonfixed_domains_and_make_assignment
    (domains : List HDomain) (branch_v f_v : Nat) : List HDomain :=
  domains.foldr
    (fun d rest =>
      if d.fixed then rest
      else if d.v = branch_v then { d with values := [f_v], count := 1 } :: rest
      else d :: rest)
    []

/-- One iteration of the scan in `find_branch_domain`: skip fixed domains, adopt
the first non-fixed one, and afterwards replace the current best exactly
when the newcomer has strictly smaller count, or equal count and strictly
larger pattern degree on graph pair 0. -/
def find_branch_domain_step (p : SParams) (result : Option HDomain)
    (d : HDomain) : Option HDomain :=
  if d.fixed then result
  else
    match result with
    | none => some d
    | some r =>
      if d.count < r.count ∨
          (d.count = r.count ∧ p.patternDegree 0 d.v > p.patternDegree 0 r.v)
      then some d else result

/-- Translation of `find_branch_domain`: the non-fixed domain with the smallest `count`,
ties broken by larger pattern degree on graph pair 0, further ties broken by
first-found order. -/
def find_branch_domain (p : SParams) (domains : List HDomain) : Option HDomain :=
  domains.foldl (find_branch_domain_step p) none

/-- The replacement criterion of `find_branch_domain`: `d` is strictly
preferred to `r`. -/
def fbd_better (p : SParams) (d r : HDomain) : Prop :=
  d.count < r.count ∨
    (d.count = r.count ∧ p.patternDegree 0 d.v > p.patternDegree 0 r.v)

/-- The comparator passed to `std::stable_sort` by `degree_sort`:
`(target_degree(0, a) >= target_degree(0, b)) ^ reverse`.  Note this is not
irreflexive, hence not a strict weak ordering. -/
def degree_sort_comp (p : SParams) (reverse : Bool) (a b : Nat) : Bool :=
  (decide (p.targetDegree 0 a ≥ p.targetDegree 0 b)).xor reverse

/-- Stable insertion of `x` (an original-earlier element) into an already
sorted list of original-later elements: `x` goes before the first `y` that
is not strictly before it under `comp`. -/
def stable_insert (comp : Nat → Nat → Bool) (x : Nat) : List Nat → List Nat
  | [] => [x]
  | y :: ys => if comp y x then y :: stable_insert comp x ys else x :: y :: ys

/-- A stable sort by the comparator `comp` (insertion sort).  Because the
source comparator `degree_sort_comp` is not a strict weak ordering,
the precondition of `std::stable_sort` is violated (undefined behaviour); this
embedding fixes one concrete resolution, under which — like typical library
implementations — equal-degree elements get reordered. -/
def stable_sort_by (comp : Nat → Nat → Bool) : List Nat → List Nat
  | [] => []
  | x :: xs => stable_insert comp x (stable_sort_by comp xs)

/-- Translation of `degree_sort`: stable sort of the branch values by the (flawed)
comparator above. -/
def degree_sort (p : SParams) (branch_v : List Nat) (reverse : Bool) : List Nat :=
  stable_sort_by (degree_sort_comp p reverse) branch_v

/-! ## Softmax-biased value ordering -/

/-- The integer weight `2^shift(degree)` with
`shift(d) = max(d - largest_target_degree + (digits(long long) - 18), 0)`,
and `digits(long long) - 18 = 63 - 18 = 45`. -/
def expish (largestTargetDegree : Nat) (degree : Nat) : Int :=
  2 ^ (max ((degree : Int) - (largestTargetDegree : Int) + 45) 0).toNat

/-- The linear scan of `softmax_shuffle`: starting from the head, subtract
weights until the running score drops to 0 or below; if the score is never
exhausted, stay on the last remaining position. -/
def softmax_select (w : Nat → Int) : List Nat → Int → Nat
  | [], _ => 0
  | [_], _ => 0
  | x :: y :: rest, score =>
    let score' := score - w x
    if score' ≤ 0 then 0 else 1 + softmax_select w (y :: rest) score'

/-- The swap `swap(branch_v[select_element], branch_v[start])` where `start` is the
head of the remaining suffix. -/
def swap_to_front (i : Nat) (xs : List Nat) : List Nat :=
  (xs.set 0 (xs.getD i 0)).set i (xs.getD 0 0)

/-- The per-round loop of `softmax_shuffle` over the remaining suffix `xs`:
draw a score in `[1, total]`, scan to the selected element, swap it to the
front, subtract its weight from `total`, recurse on the tail.  `fuel` is the
suffix length at the first call (one round per element). -/
def softmax_go (w : Nat → Int) (rng : Nat → Int → Int) :
    Nat → Nat → Int → List Nat → List Nat
  | 0, _, _, xs => xs
  | _ + 1, _, _, [] => []
  | n + 1, r, total, x :: rest =>
    let score := rng r total
    let i := softmax_select w (x :: rest) score
    let sw := swap_to_front i (x :: rest)
    sw.headD x :: softmax_go w rng n (r + 1) (total - w (sw.headD x)) (sw.drop 1)

/-- Translation of `softmax_shuffle`: repeatedly pick a softmax-biased element and move it
to the front, considering only the suffix afterwards.  Returns the shuffled
list and the advanced RNG position (one draw per round). -/
def softmax_shuffle (p : SParams) (r : Nat) (branch_v : List Nat) :
    List Nat × Nat :=
  let w := fun c => expish p.largestTargetDegree (p.targetDegree 0 c)
  let total := (branch_v.map w).sum
  (softmax_go w p.rngStream branch_v.length r total branch_v, r + branch_v.length)

/-! ## Less-than propagation -/

/-- The `find_domain` index vector of `propagate_less_thans`: for each
pattern vertex, the (last-written) index of its domain in `new_domains`, or
`none` when absent. -/
def find_domain_idx (domains : List HDomain) (v : Nat) : Option Nat :=
  ((domains.enum.filter (fun q => q.2.v = v)).getLast?).map (·.1)

/-- First pass of `propagate_less_thans` for one pair `(a, b)`: the first
value of `b` must be at least one after the first possible value of `a`.
Pairs with an absent endpoint are skipped.  `fd` is the `find_domain` index
map built at function entry. -/
def less_thans_pass1_step (p : SParams) (fd : Nat → Option Nat)
    (domains : List HDomain) (ab : Nat × Nat) : Option (List HDomain) :=
  match fd ab.1, fd ab.2 with
  | some i, some j =>
    let aD := domains.getD i default
    let bD := domains.getD j default
    match list_min aD.values with
    | none => none
    | some first_a =>
      let first_allowed_b := first_a + 1
      if p.targetSize ≤ first_allowed_b then none
      else
        -- ascending find_first / reset loop, breaking at the first value
        -- ≥ first_allowed_b: removes every value < first_allowed_b
        let newVals := bD.values.filter (fun v => decide (first_allowed_b ≤ v))
        let newCount := newVals.length
        if newCount = 0 then none
        else some (domains.set j { bD with values := newVals, count := newCount })
  | _, _ => some domains

/-- Second pass of `propagate_less_thans` for one pair `(a, b)`: the last
value of `a` must be at least one before the last possible value of `b`.
When `b` is empty the last-value scan yields `npos`, which is nonzero and
larger than every value, so nothing fails and nothing is removed. -/
def less_thans_pass2_step (fd : Nat → Option Nat)
    (domains : List HDomain) (ab : Nat × Nat) : Option (List HDomain) :=
  match fd ab.1, fd ab.2 with
  | some i, some j =>
    let aD := domains.getD i default
    let bD := domains.getD j default
    match list_max bD.values with
    | none => some domains
    | some last_b =>
      if last_b = 0 then none
      else
        let last_allowed_a := last_b - 1
        let newVals := aD.values.filter (fun v => decide (v ≤ last_allowed_a))
        let newCount := newVals.length
        if newCount = 0 then none
        else some (domains.set i { aD with values := newVals, count := newCount })
  | _, _ => some domains

/-- Translation of `propagate_less_thans`: the two passes over the ordered pairs of the model,
threading the domain vector, failing (`none`) on any empty domain. -/
def propagate_less_thans (p : SParams) (domains : List HDomain) :
    Option (List HDomain) := do
  let fd := find_domain_idx domains
  let d1 ← p.lessThans.foldlM (less_thans_pass1_step p fd) domains
  p.lessThans.foldlM (less_thans_pass2_step fd) d1

/-- Written from the words of claim C7 / spec §4.3.2 (for comparison with the
source translation above): first pass — fail if the domain of `a` is empty,
remove from `b` every value less than or equal to the first set value of
`a`, fail if the domain of `b` becomes empty; second pass — `last_b` is the
highest set value of `b`, fail if `last_b` equals 0, remove from `a` every
value greater than `last_b - 1`, fail if the domain of `a` becomes empty; pairs
with an absent endpoint are skipped.  (The claim does not constrain the
second pass on an empty `b` domain; this definition mirrors the source
`npos` behaviour there.) -/
def less_thans_claim_pass1_step (fd : Nat → Option Nat)
    (domains : List HDomain) (ab : Nat × Nat) : Option (List HDomain) :=
  match fd ab.1, fd ab.2 with
  | some i, some j =>
    let aD := domains.getD i default
    let bD := domains.getD j default
    match list_min aD.values with
    | none => none
    | some first_a =>
      let newVals := bD.values.filter (fun v => decide (first_a < v))
      let newCount := newVals.length
      if newCount = 0 then none
      else some (domains.set j { bD with values := newVals, count := newCount })
  | _, _ => some domains

/-- The claim-side whole function: claim pass 1 then pass 2 (the pass 2 wording
agrees with the source computation, see `less_thans_pass2_step`). -/
def propagate_less_thans_claim (p : SParams) (domains : List HDomain) :
    Option (List HDomain) := do
  let fd := find_domain_idx domains
  let d1 ← p.lessThans.foldlM (less_thans_claim_pass1_step fd) domains
  p.lessThans.foldlM (less_thans_pass2_step fd) d1

/-! ## Simple constraints (injectivity, adjacency, edge labels) -/

/-- Translation of `both_in_the_neighbourhood_of_some_vertex`: the two pattern rows on
graph pair 0 intersect (bitsets over pattern vertices). -/
def both_in_the_neighbourhood_of_some_vertex (p : SParams) (v w : Nat) : Bool :=
  (List.range p.patternSize).any
    (fun x => p.patternGraphRow 0 v x && p.patternGraphRow 0 w x)

/-- Translation of `propagate_adjacency_constraints<directed_, has_edge_labels_, induced_>`
applied to the values of one domain: graph-pair-0 filtering (directed or
not, induced or not), the auxiliary graph pairs `1 .. max_graphs - 1`, and
the edge-label filters. -/
def propagate_adjacency_constraints (p : SParams)
    (dir lbl ind : Bool) (dv : Nat) (current : Assignment)
    (values : List Nat) : List Nat :=
  let bits := p.patternAdjBits current.pv dv
  let v1 :=
    if ¬ dir then
      if bits.testBit 0 then values.filter (fun c => p.targetGraphRow 0 current.tv c)
      else if ind then values.filter (fun c => ! p.targetGraphRow 0 current.tv c)
      else values
    else
      let f :=
        if bits.testBit 0 then values.filter (fun c => p.forwardTargetGraphRow current.tv c)
        else if ind then values.filter (fun c => ! p.forwardTargetGraphRow current.tv c)
        else values
      let rev_bits := p.patternAdjBits dv current.pv
      if rev_bits.testBit 0 then f.filter (fun c => p.reverseTargetGraphRow current.tv c)
      else if ind then f.filter (fun c => ! p.reverseTargetGraphRow current.tv c)
      else f
  let v2 :=
    (List.range p.maxGraphs).drop 1 |>.foldl
      (fun vals g =>
        if bits.testBit g then vals.filter (fun c => p.targetGraphRow g current.tv c)
        else vals)
      v1
  if lbl then
    let v3 :=
      if bits.testBit 0 then
        v2.filter (fun c => p.targetEdgeLabel current.tv c = p.patternEdgeLabel current.pv dv)
      else v2
    let rev_bits := p.patternAdjBits dv current.pv
    if rev_bits.testBit 0 then
      v3.filter (fun c => p.targetEdgeLabel c current.tv = p.patternEdgeLabel dv current.pv)
    else v3
  else v2

/-- Body of `propagate_simple_constraints` for one non-fixed domain:
injectivity removal, then adjacency (dispatched on `directed` /
`has_edge_labels` / `induced`; edge-labelled graphs are treated as
directed), then the count recomputation. -/
def simple_constraints_one (p : SParams) (current : Assignment)
    (d : HDomain) : HDomain :=
  let vals0 :=
    match p.injectivity with
    | Injectivity.Injective => d.values.erase current.tv
    | Injectivity.LocallyInjective =>
      if both_in_the_neighbourhood_of_some_vertex p current.pv d.v then
        d.values.erase current.tv
      else d.values
    | Injectivity.NonInjective => d.values
  let dir := if p.hasEdgeLabels then true else p.directed
  let vals1 := propagate_adjacency_constraints p dir p.hasEdgeLabels p.induced
    d.v current vals0
  { d with values := vals1, count := vals1.length }

/-- Translation of `propagate_simple_constraints`: update every non-fixed domain in order,
failing as soon as one becomes empty. -/
def propagate_simple_constraints (p : SParams) (domains : List HDomain)
    (current : Assignment) : Option (List HDomain) :=
  match domains with
  | [] => some []
  | d :: rest =>
    if d.fixed then
      (propagate_simple_constraints p rest current).map (d :: ·)
    else
      let d' := simple_constraints_one p current d
      if d'.count = 0 then none
      else (propagate_simple_constraints p rest current).map (d' :: ·)

/-- Translation of `propagate_hyperedge_constraints`: a no-op placeholder that always
succeeds. -/
def propagate_hyperedge_constraints (_domains : List HDomain)
    (_current : Assignment) : Bool :=
  true

/-! ## Watch-driven unit deletions and the lackey phase -/

/-- The `on_unit_in_nogood` callback of `propagate` (lines 620–630): find the
first non-fixed domain for the pattern vertex of the literal and clear the
target vertex of the literal from it (the stored count is left stale; it is
recomputed by the simple-constraint pass). -/
def delete_unit_literal (a : Assignment) : List HDomain → List HDomain
  | [] => []
  | d :: rest =>
    if d.fixed then d :: delete_unit_literal a rest
    else if d.v = a.pv then { d with values := d.values.erase a.tv } :: rest
    else d :: delete_unit_literal a rest

/-- The deletion callback handed to `lackey->check_solution` during
propagation (lines 655–670), applied to one request `(pv, tv)`: once a
wipeout happened, do nothing and report `false`; otherwise find the first
domain whose `v` matches `pv` (fixed or not), and if `tv` is present remove
it, decrement the stored count, flag a wipeout when the count reaches zero,
and report `true`; in every other case report `false`. -/
def lackey_delete (pv tv : Nat) : List HDomain → List HDomain × Bool × Bool
  | [] => ([], false, false)
  | d :: rest =>
    if d.v = pv then
      if tv ∈ d.values then
        ({ d with values := d.values.erase tv, count := d.count - 1 } :: rest,
         true, d.count - 1 = 0)
      else (d :: rest, false, false)
    else
      let r := lackey_delete pv tv rest
      (d :: r.1, r.2.1, r.2.2)

/-- Fold the deletion requests of the lackey through the deletion callback,
tracking the wipeout flag (requests after a wipeout are ignored). -/
def lackey_apply_deletions (domains : List HDomain)
    (reqs : List (Nat × Nat)) : List HDomain × Bool :=
  reqs.foldl
    (fun (st : List HDomain × Bool) pt =>
      if st.2 then st
      else
        let r := lackey_delete pt.1 pt.2 st.1
        (r.1, r.2.2))
    (domains, false)

/-- Lines 650–674 of `propagate`: after the unit-propagation fixpoint, if a
lackey is configured and this frame requested lackey propagation or
`send_partials_to_lackey` is set, call `check_solution` with the partial
mapping, `partial = true`, `count = false`, and — only when this frame
requested lackey propagation — the deletion callback.  Fails when the
verdict is `false` or a wipeout occurred.  The third component records the
call made, for the observable trace. -/
def lackey_phase (p : SParams) (useLackey : Bool) (trail : List TrailEntry)
    (domains : List HDomain) : Bool × List HDomain × Option LackeyCall :=
  match p.lackey with
  | none => (true, domains, none)
  | some lk =>
    if useLackey || p.sendPartialsToLackey then
      let mapping := expand_to_full_result trail
      let rv := lk.check mapping true false
      let dw :=
        if useLackey then lackey_apply_deletions domains rv.1
        else (domains, false)
      (rv.2 && ! dw.2, dw.1, some ⟨mapping, true, false, useLackey⟩)
    else (true, domains, none)

/-! ## The propagation fixpoint -/

/-- Translation of `find_unit_domain`: index of the first non-fixed domain of count 1. -/
def find_unit_domain (domains : List HDomain) : Option Nat :=
  domains.findIdx? (fun d => ! d.fixed && d.count = 1)

/-- Result of `propagate`: success flag, the final domain vector, and the
final trail (on failure the partially-pruned domains are dropped by the
caller, so only the flag and the trail matter there). -/
structure PropOut where
  ok : Bool
  doms : List HDomain
  trail : List TrailEntry
deriving DecidableEq, Repr

/-- Translation of `propagate` (lines 592–677): while some domain is unit, commit its
assignment (mark fixed, push a non-decision trail entry `{a, false, -1, -1}`),
fire the watch store, run the simple constraints, the (no-op) hyperedge
constraints, less-than propagation and cheap all-different; after the
fixpoint run the lackey phase.  Failures return `ok = false` with the trail
as it stands — propagate never removes trail entries.  `fuel` bounds the
fixpoint iterations (each one fixes a domain); `none` means out of fuel. -/
def propagate (p : SParams) : Nat → List HDomain → Bool →
    List TrailEntry → List (List Assignment) → Option PropOut
  | 0, _, _, _, _ => none
  | fuel + 1, domains, useLackey, trail, nogoods =>
    match find_unit_domain domains with
    | none =>
      let lp := lackey_phase p useLackey trail domains
      some ⟨lp.1, lp.2.1, trail⟩
    | some i =>
      let d := domains.getD i default
      let current : Assignment := ⟨d.v, (list_min d.values).getD 0⟩
      let domains1 := domains.set i { d with fixed := true }
      let trail1 := trail ++ [⟨current, false, -1, -1⟩]
      let fired :=
        if p.mightHaveWatches then p.watchesFire current trail1 nogoods else []
      let domains2 := fired.foldl (fun ds a => delete_unit_literal a ds) domains1
      match propagate_simple_constraints p domains2 current with
      | none => some ⟨false, domains2, trail1⟩
      | some domains3 =>
        if p.bigraph && ! propagate_hyperedge_constraints domains3 current then
          some ⟨false, domains3, trail1⟩
        else
          match (if p.hasLessThans then propagate_less_thans p domains3
                 else some domains3) with
          | none => some ⟨false, domains3, trail1⟩
          | some domains4 =>
            match (if p.injectivity = Injectivity.Injective then
                     p.cheapAllDifferent domains4
                   else some domains4) with
            | none => some ⟨false, domains4, trail1⟩
            | some domains5 => propagate p fuel domains5 useLackey trail1 nogoods

/-! ## The recursive search -/

/-- The candidate loop of `restarting_search` (lines 160–243), instrumented:
besides the result and state it returns a log with one record per executed
iteration — the decision trail entry pushed for that candidate and whether
its propagation succeeded.  `recur` is the recursive search call, `v` the
branch vertex, `n` the candidate count (`branch_v_end`), `tried` the
candidates already attempted (for nogood posting on restart), `disc` the
running `discrepancy_count` (not incremented when propagation fails, since
`continue` skips the increment at the end of the loop body), `hitFail` the
`actually_hit_a_failure` flag and `useLackey` the
`use_lackey_for_propagation` flag. -/
def search_loop_logged (p : SParams)
    (recur : List HDomain → Nat → SState → Option (SearchResult × SState))
    (v : Nat) (n : Nat) (domains : List HDomain) (depth : Nat) :
    List Nat → List Nat → Int → Bool → Bool → SState →
    Option (SearchResult × SState × List (TrailEntry × Bool))
  | _tried, [], _disc, hitFail, useLackey, st =>
    -- out of values: maybe notify a backtrack, maybe kick off a restart
    let st1 :=
      if hitFail then { st with rsState := p.rsDidBacktrack st.rsState } else st
    if p.rsShouldRestart st1.rsState then
      some (.Restart, { st1 with nogoods := post_nogood p st1.trail st1.nogoods }, [])
    else
      some ((if useLackey then SearchResult.UnsatisfiableAndBackjumpUsingLackey
             else SearchResult.Unsatisfiable), st1, [])
  | tried, c :: rest, disc, hitFail, useLackey, st =>
    let assignmentsSize := st.trail.length
    let entry : TrailEntry := ⟨⟨v, c⟩, true, disc, (n : Int)⟩
    let newDomains := copy_nonfixed_domains_and_make_assignment domains v c
    let st1 := { st with trail := st.trail ++ [entry],
                         propagations := st.propagations + 1 }
    match propagate p (newDomains.length + 1) newDomains
        (useLackey || (p.propagateUsingLackey = PropagateUsingLackey.Always))
        st1.trail st1.nogoods with
    | none => none
    | some pr =>
      if pr.ok then
        match recur pr.doms (depth + 1) { st1 with trail := pr.trail } with
        | none => none
        | some (res, st2) =>
          match res with
          | .Satisfiable => some (.Satisfiable, st2, [(entry, true)])
          | .Aborted => some (.Aborted, st2, [(entry, true)])
          | .Restart =>
            -- restore assignments, then post nogoods for everything tried
            let st3 := { st2 with trail := st2.trail.take assignmentsSize }
            some (.Restart,
              { st3 with nogoods := post_nogoods_for_tried p v tried st3.trail st3.nogoods },
              [(entry, true)])
          | .SatisfiableButKeepGoing =>
            (search_loop_logged p recur v n domains depth (tried ++ [c]) rest
                (disc + 1) hitFail useLackey
                { st2 with trail := st2.trail.take assignmentsSize }).map
              (fun r => (r.1, r.2.1, (entry, true) :: r.2.2))
          | .UnsatisfiableAndBackjumpUsingLackey =>
            (search_loop_logged p recur v n domains depth (tried ++ [c]) rest
                (disc + 1) true true
                { st2 with trail := st2.trail.take assignmentsSize }).map
              (fun r => (r.1, r.2.1, (entry, true) :: r.2.2))
          | .Unsatisfiable =>
            (search_loop_logged p recur v n domains depth (tried ++ [c]) rest
                (disc + 1) true useLackey
                { st2 with trail := st2.trail.take assignmentsSize }).map
              (fun r => (r.1, r.2.1, (entry, true) :: r.2.2))
      else
        -- propagation failure: restore assignments and go on, discrepancy
        -- count unchanged
        (search_loop_logged p recur v n domains depth (tried ++ [c]) rest
            disc true useLackey
            { st1 with trail := pr.trail.take assignmentsSize }).map
          (fun r => (r.1, r.2.1, (entry, false) :: r.2.2))

/-- The candidate loop of `restarting_search`, as the source computes it
(the instrumentation log projected away). -/
def search_loop (p : SParams)
    (recur : List HDomain → Nat → SState → Option (SearchResult × SState))
    (v : Nat) (n : Nat) (domains : List HDomain) (depth : Nat)
    (tried : List Nat) (rest : List Nat) (disc : Int)
    (hitFail : Bool) (useLackey : Bool) (st : SState) :
    Option (SearchResult × SState) :=
  (search_loop_logged p recur v n domains depth tried rest disc hitFail
      useLackey st).map (fun r => (r.1, r.2.1))

/-- Translation of `restarting_search` (lines 64–260): abort probe, node count, branch
domain selection (or leaf handling), candidate ordering, and the candidate
loop.  `fuel` bounds the recursion depth (bounded by the pattern size in the
source); `none` means out of fuel. -/
def restarting_search (p : SParams) :
    Nat → List HDomain → Nat → SState → Option (SearchResult × SState)
  | 0, _, _, _ => none
  | fuel + 1, domains, depth, st =>
    let st0 := { st with time := st.time + 1 }
    if p.abortSeq st.time then some (.Aborted, st0)
    else
      let st1 := { st0 with nodes := st0.nodes + 1 }
      match find_branch_domain p domains with
      | none =>
        -- all assigned: solution handling
        let mapping := expand_to_full_result st1.trail
        if p.bigraph && ! p.checkExtraBigraph mapping then
          some (.Unsatisfiable,
            { st1 with nogoods := post_solution_nogood p st1.trail st1.nogoods })
        else if (match p.lackey with
                 | some lk => ! (lk.check mapping false p.countSolutions).2
                 | none => false) then
          some ((if p.propagateUsingLackey = PropagateUsingLackey.RootAndBackjump
                 then SearchResult.UnsatisfiableAndBackjumpUsingLackey
                 else SearchResult.Unsatisfiable), st1)
        else if p.countSolutions then
          let st2 := { st1 with solutionCount := st1.solutionCount + 1 }
          let st3 :=
            if p.bigraph then
              { st2 with nogoods := post_solution_nogood p st2.trail st2.nogoods }
            else st2
          -- the enumerate callback receives the mapping but does not touch
          -- the searcher state
          some (.SatisfiableButKeepGoing, st3)
        else some (.Satisfiable, st1)
      | some bd =>
        -- pull out the remaining values for branching, then order them
        let branch_v := sort_asc bd.values
        let n := branch_v.length
        let cs : List Nat × SState :=
          match p.valueOrdering with
          | ValueOrdering.Degree => (degree_sort p branch_v false, st1)
          | ValueOrdering.AntiDegree => (degree_sort p branch_v true, st1)
          | ValueOrdering.Biased =>
            let sr := softmax_shuffle p st1.rng branch_v
            (sr.1, { st1 with rng := sr.2 })
          | ValueOrdering.Random =>
            (p.stdShuffle st1.rng branch_v, { st1 with rng := st1.rng + 1 })
        search_loop p (fun d dep s => restarting_search p fuel d dep s)
          bd.v n domains depth [] cs.1 0 false false cs.2


/-! ## Proof-side invariant definitions -/

/-- Invariant of the scan in `find_branch_domain` over the processed prefix. -/
def FbdInv (p : SParams) (pre : List HDomain) (acc : Option HDomain) : Prop :=
  (acc = none ↔ ∀ d ∈ pre, d.fixed = true) ∧
  (∀ r, acc = some r →
    r.fixed = false ∧
    (∀ d ∈ pre, d.fixed = false → ¬ fbd_better p d r) ∧
    ∃ l1 l2, pre = l1 ++ r :: l2 ∧
      ∀ d ∈ l1, d.fixed = false →
        ¬ (d.count = r.count ∧ p.patternDegree 0 d.v = p.patternDegree 0 r.v))

/-! ## Concrete example instances (used by witnesses and counterexamples) -/

/-- A neutral example configuration: no adjacency, non-injective, Random
value ordering with the identity shuffle, no lackey, no bigraph. -/
def exP : SParams := {
  patternSize := 4, targetSize := 3,
  injectivity := .NonInjective, induced := false, bigraph := false,
  countSolutions := false, valueOrdering := .Random,
  propagateUsingLackey := .Never, sendPartialsToLackey := false,
  enumerate := false, mightHaveWatches := true, lackey := none,
  patternDegree := fun _ _ => 0, targetDegree := fun _ _ => 0,
  largestTargetDegree := 0, maxGraphs := 1, directed := false,
  hasEdgeLabels := false, hasLessThans := false,
  patternAdjBits := fun _ _ => 0,
  targetGraphRow := fun _ _ _ => false,
  forwardTargetGraphRow := fun _ _ => false,
  reverseTargetGraphRow := fun _ _ => false,
  patternGraphRow := fun _ _ _ => false,
  patternEdgeLabel := fun _ _ => 0, targetEdgeLabel := fun _ _ => 0,
  lessThans := [], patternLinkCount := 0,
  checkExtraBigraph := fun _ => true,
  abortSeq := fun _ => false,
  rsDidBacktrack := fun s => s + 1,
  rsShouldRestart := fun s => decide (1 ≤ s),
  watchesFire := fun _ _ _ => [],
  cheapAllDifferent := fun d => some d,
  stdShuffle := fun _ l => l,
  rngStream := fun _ _ => 1 }

def exSt : SState := ⟨[], 0, 0, 0, 0, [], 0, 0⟩

def exPRestart : SParams :=
  { exP with
      patternAdjBits := fun u v =>
        if (u = 1 ∧ v = 3) ∨ (u = 3 ∧ v = 1) ∨ (u = 2 ∧ v = 3) ∨ (u = 3 ∧ v = 2)
        then 1 else 0,
      targetGraphRow := fun _ t c =>
        decide ((t = 1 ∧ c = 1) ∨ (t = 1 ∧ c = 2) ∨ (t = 2 ∧ c = 0)) }

def exDomsRestart : List HDomain :=
  [⟨0, [0], 1, false⟩, ⟨1, [0, 1], 2, false⟩, ⟨2, [0, 2], 2, false⟩,
   ⟨3, [0, 1, 2], 3, false⟩]

def exPAbort : SParams :=
  { exP with abortSeq := fun t => decide (1 ≤ t) }

def exPDisc : SParams :=
  { exP with
      patternSize := 3,
      patternAdjBits := fun u v =>
        if (u = 1 ∧ v = 2) ∨ (u = 2 ∧ v = 1) then 1 else 0,
      targetGraphRow := fun _ t c => decide (t = 1 ∧ c = 2),
      rsShouldRestart := fun _ => false }

def exDomsDisc : List HDomain :=
  [⟨0, [0], 1, false⟩, ⟨1, [0, 1], 2, false⟩, ⟨2, [0, 1, 2], 3, false⟩]

def exPCount : SParams := { exP with countSolutions := true }

def exPDeg : SParams := { exP with targetDegree := fun _ _ => 5 }

def exLackey : Lackey := ⟨fun _ _ _ => ([], true)⟩

def exPPartials : SParams :=
  { exP with lackey := some exLackey, sendPartialsToLackey := true }

def exPLackey : SParams := { exP with lackey := some exLackey }

def exPLess : SParams := { exP with hasLessThans := true, lessThans := [(0, 1)] }

def exDomsLess : List HDomain :=
  [⟨0, [0, 1], 2, false⟩, ⟨1, [0, 1, 2], 3, false⟩]

def exDomsFbd : List HDomain :=
  [⟨0, [0], 1, true⟩, ⟨1, [0, 1], 2, false⟩, ⟨2, [0], 1, false⟩,
   ⟨3, [9], 1, false⟩]

def exRecur : List HDomain → Nat → SState → Option (SearchResult × SState) :=
  fun _ _ s => some (.Unsatisfiable, s)

end GSS

namespace GSS

/-- The function `propagate` only ever appends to the trail, and every entry it appends
is a non-decision unit-propagation record `{_, false, -1, -1}`. -/
theorem propagate_trail_extends (p : SParams) (fuel : Nat) :
    ∀ (domains : List HDomain) (useLackey : Bool) (trail : List TrailEntry)
      (nogoods : List (List Assignment)) (out : PropOut),
      propagate p fuel domains useLackey trail nogoods = some out →
      ∃ pushed, out.trail = trail ++ pushed ∧
        ∀ e ∈ pushed, e.is_decision = false ∧ e.discrepancy_count = -1 ∧
          e.choice_count = -1 := by
  induction fuel with
  | zero => intro _ _ _ _ _ h; simp [propagate] at h
  | succ fuel ih =>
    intro domains useLackey trail nogoods out h
    rw [propagate] at h
    split at h
    · -- fixpoint reached: lackey phase, trail unchanged
      cases h
      exact ⟨[], by simp, by simp⟩
    · -- one unit commit
      simp only [propagate_hyperedge_constraints, Bool.not_true, Bool.and_false,
        Bool.false_eq_true, if_false] at h
      split at h
      · -- simple constraints failed
        cases h
        exact ⟨_, rfl, fun e he => by
          rcases List.mem_singleton.mp he with rfl; exact ⟨rfl, rfl, rfl⟩⟩
      · split at h
        · -- less-thans failed
          cases h
          exact ⟨_, rfl, fun e he => by
            rcases List.mem_singleton.mp he with rfl; exact ⟨rfl, rfl, rfl⟩⟩
        · split at h
          · -- cheap all-different failed
            cases h
            exact ⟨_, rfl, fun e he => by
              rcases List.mem_singleton.mp he with rfl; exact ⟨rfl, rfl, rfl⟩⟩
          · -- recurse on the rest of the fixpoint
            obtain ⟨pushed, hp, hflags⟩ := ih _ _ _ _ _ h
            rw [List.append_assoc] at hp
            simp only [List.cons_append, List.nil_append] at hp
            refine ⟨_, hp, ?_⟩
            intro e he
            rcases List.mem_cons.mp he with rfl | he'
            · exact ⟨rfl, rfl, rfl⟩
            · exact hflags e he'

/-- Taking the pre-branch length of the trail returned by `propagate`
recovers the pre-branch trail exactly (the resize done by the caller). -/
theorem propagate_trail_take (p : SParams) (fuel : Nat)
    {domains : List HDomain} {useLackey : Bool} {nogoods : List (List Assignment)}
    {out : PropOut} (pre : List TrailEntry) (e : TrailEntry)
    (h : propagate p fuel domains useLackey (pre ++ [e]) nogoods = some out) :
    out.trail.take pre.length = pre := by
  obtain ⟨pushed, hp, -⟩ := propagate_trail_extends p fuel _ _ _ _ _ h
  rw [List.append_assoc] at hp
  rw [hp]
  exact List.take_left pre _

/-- If the recursive call restores the trail on every result other than
`Satisfiable` and `Aborted`, then so does the candidate loop. -/
theorem search_loop_trail (p : SParams)
    (recur : List HDomain → Nat → SState → Option (SearchResult × SState))
    (v n : Nat) (domains : List HDomain) (depth : Nat)
    (hrec : ∀ d dep s res s', recur d dep s = some (res, s') →
      res ≠ SearchResult.Satisfiable → res ≠ SearchResult.Aborted →
      s'.trail = s.trail) :
    ∀ (rest tried : List Nat) (disc : Int) (hitFail useLackey : Bool)
      (st : SState) (res : SearchResult) (st' : SState)
      (log : List (TrailEntry × Bool)),
      search_loop_logged p recur v n domains depth tried rest disc hitFail
        useLackey st = some (res, st', log) →
      res ≠ SearchResult.Satisfiable → res ≠ SearchResult.Aborted →
      st'.trail = st.trail := by
  intro rest
  induction rest with
  | nil =>
    intro tried disc hitFail useLackey st res st' log h _ _
    rw [search_loop_logged] at h
    split at h <;> split at h <;> cases h <;> rfl
  | cons c rest ih =>
    intro tried disc hitFail useLackey st res st' log h hs ha
    rw [search_loop_logged] at h
    split at h
    · exact Option.noConfusion h
    · rename_i pr hprop
      split at h
      · -- propagation succeeded: recurse
        split at h
        · exact Option.noConfusion h
        · rename_i q hq
          split at h
          · cases h; exact absurd rfl hs
          · cases h; exact absurd rfl ha
          · -- Restart from below
            cases h
            have h2 := hrec _ _ _ _ _ hq (by simp) (by simp)
            simp only [h2]
            exact propagate_trail_take p _ st.trail _ hprop
          · -- SatisfiableButKeepGoing: continue
            rw [Option.map_eq_some'] at h
            obtain ⟨r, hr, hfr⟩ := h
            cases hfr
            have h3 := ih _ _ _ _ _ _ _ _ hr hs ha
            rw [h3]
            have h2 := hrec _ _ _ _ _ hq (by simp) (by simp)
            simp only [h2]
            exact propagate_trail_take p _ st.trail _ hprop
          · -- UnsatisfiableAndBackjumpUsingLackey: continue
            rw [Option.map_eq_some'] at h
            obtain ⟨r, hr, hfr⟩ := h
            cases hfr
            have h3 := ih _ _ _ _ _ _ _ _ hr hs ha
            rw [h3]
            have h2 := hrec _ _ _ _ _ hq (by simp) (by simp)
            simp only [h2]
            exact propagate_trail_take p _ st.trail _ hprop
          · -- Unsatisfiable: continue
            rw [Option.map_eq_some'] at h
            obtain ⟨r, hr, hfr⟩ := h
            cases hfr
            have h3 := ih _ _ _ _ _ _ _ _ hr hs ha
            rw [h3]
            have h2 := hrec _ _ _ _ _ hq (by simp) (by simp)
            simp only [h2]
            exact propagate_trail_take p _ st.trail _ hprop
      · -- propagation failed: continue with restored trail
        rw [Option.map_eq_some'] at h
        obtain ⟨r, hr, hfr⟩ := h
        cases hfr
        have h3 := ih _ _ _ _ _ _ _ _ hr hs ha
        rw [h3]
        exact propagate_trail_take p _ st.trail _ hprop

end GSS

namespace GSS

/-- The decision entry recorded for the `i`-th executed iteration of the
candidate loop maps the branch vertex to the `i`-th candidate, carries
`choice_count = n`, and carries as `discrepancy_count` the incoming
discrepancy plus the number of earlier iterations whose propagation
succeeded (a failed propagation `continue`s, skipping the
`++discrepancy_count`). -/
theorem search_loop_log_spec (p : SParams)
    (recur : List HDomain → Nat → SState → Option (SearchResult × SState))
    (v n : Nat) (domains : List HDomain) (depth : Nat) :
    ∀ (rest tried : List Nat) (disc : Int) (hitFail useLackey : Bool)
      (st : SState) (res : SearchResult) (st' : SState)
      (log : List (TrailEntry × Bool)),
      search_loop_logged p recur v n domains depth tried rest disc hitFail
        useLackey st = some (res, st', log) →
      log.length ≤ rest.length ∧
      ∀ i, i < log.length →
        (log.getD i (⟨⟨0, 0⟩, false, 0, 0⟩, false)).1 =
          ⟨⟨v, rest.getD i 0⟩, true,
            disc + (((log.take i).filter (·.2)).length : Int), (n : Int)⟩ := by
  intro rest
  induction rest with
  | nil =>
    intro tried disc hitFail useLackey st res st' log h
    rw [search_loop_logged] at h
    split at h <;> split at h <;> cases h <;>
      exact ⟨Nat.le_refl 0, fun i hi => absurd hi (Nat.not_lt_zero i)⟩
  | cons c rest ih =>
    intro tried disc hitFail useLackey st res st' log h
    rw [search_loop_logged] at h
    split at h
    · exact Option.noConfusion h
    · split at h
      · -- propagation succeeded
        split at h
        · exact Option.noConfusion h
        · split at h
          · -- Satisfiable
            cases h
            refine ⟨by simp, ?_⟩
            intro i hi
            simp only [List.length_singleton, Nat.lt_one_iff] at hi
            subst hi
            simp
          · -- Aborted
            cases h
            refine ⟨by simp, ?_⟩
            intro i hi
            simp only [List.length_singleton, Nat.lt_one_iff] at hi
            subst hi
            simp
          · -- Restart
            cases h
            refine ⟨by simp, ?_⟩
            intro i hi
            simp only [List.length_singleton, Nat.lt_one_iff] at hi
            subst hi
            simp
          · -- SatisfiableButKeepGoing: continue with disc + 1
            rw [Option.map_eq_some'] at h
            obtain ⟨r, hr, hfr⟩ := h
            cases hfr
            obtain ⟨hlen, hspec⟩ := ih _ _ _ _ _ _ _ _ hr
            refine ⟨by simpa using Nat.succ_le_succ hlen, ?_⟩
            intro i hi
            cases i with
            | zero => simp
            | succ j =>
              simp only [List.length_cons, Nat.succ_lt_succ_iff] at hi
              rw [List.getD_cons_succ, List.getD_cons_succ, List.take_succ_cons,
                hspec j hi, List.filter_cons_of_pos (by rfl), List.length_cons]
              simp only [TrailEntry.mk.injEq, true_and, and_true]
              push_cast
              ring
          · -- UnsatisfiableAndBackjumpUsingLackey: continue with disc + 1
            rw [Option.map_eq_some'] at h
            obtain ⟨r, hr, hfr⟩ := h
            cases hfr
            obtain ⟨hlen, hspec⟩ := ih _ _ _ _ _ _ _ _ hr
            refine ⟨by simpa using Nat.succ_le_succ hlen, ?_⟩
            intro i hi
            cases i with
            | zero => simp
            | succ j =>
              simp only [List.length_cons, Nat.succ_lt_succ_iff] at hi
              rw [List.getD_cons_succ, List.getD_cons_succ, List.take_succ_cons,
                hspec j hi, List.filter_cons_of_pos (by rfl), List.length_cons]
              simp only [TrailEntry.mk.injEq, true_and, and_true]
              push_cast
              ring
          · -- Unsatisfiable: continue with disc + 1
            rw [Option.map_eq_some'] at h
            obtain ⟨r, hr, hfr⟩ := h
            cases hfr
            obtain ⟨hlen, hspec⟩ := ih _ _ _ _ _ _ _ _ hr
            refine ⟨by simpa using Nat.succ_le_succ hlen, ?_⟩
            intro i hi
            cases i with
            | zero => simp
            | succ j =>
              simp only [List.length_cons, Nat.succ_lt_succ_iff] at hi
              rw [List.getD_cons_succ, List.getD_cons_succ, List.take_succ_cons,
                hspec j hi, List.filter_cons_of_pos (by rfl), List.length_cons]
              simp only [TrailEntry.mk.injEq, true_and, and_true]
              push_cast
              ring
      · -- propagation failed: continue with the same disc
        rw [Option.map_eq_some'] at h
        obtain ⟨r, hr, hfr⟩ := h
        cases hfr
        obtain ⟨hlen, hspec⟩ := ih _ _ _ _ _ _ _ _ hr
        refine ⟨by simpa using Nat.succ_le_succ hlen, ?_⟩
        intro i hi
        cases i with
        | zero => simp
        | succ j =>
          simp only [List.length_cons, Nat.succ_lt_succ_iff] at hi
          rw [List.getD_cons_succ, List.getD_cons_succ, List.take_succ_cons,
            hspec j hi, List.filter_cons_of_neg (by simp)]

end GSS

namespace GSS

theorem fbd_lex (p : SParams) {e d r : HDomain} (he : ¬ fbd_better p e r)
    (hd : fbd_better p d r) :
    ¬ fbd_better p e d ∧
      ¬ (e.count = d.count ∧ p.patternDegree 0 e.v = p.patternDegree 0 d.v) := by
  unfold fbd_better at *
  omega

theorem fbd_irrefl (p : SParams) (d : HDomain) : ¬ fbd_better p d d := by
  unfold fbd_better
  omega

theorem fbd_step_inv (p : SParams) (pre : List HDomain) (acc : Option HDomain)
    (d : HDomain) (h : FbdInv p pre acc) :
    FbdInv p (pre ++ [d]) (find_branch_domain_step p acc d) := by
  obtain ⟨hnone, hsome⟩ := h
  unfold find_branch_domain_step
  by_cases hf : d.fixed = true
  · -- fixed: accumulator unchanged
    rw [if_pos hf]
    constructor
    · rw [hnone]
      constructor
      · intro hp e he
        rcases List.mem_append.mp he with he' | he'
        · exact hp e he'
        · rcases List.mem_singleton.mp he' with rfl; exact hf
      · intro hp e he
        exact hp e (List.mem_append.mpr (Or.inl he))
    · intro r hr
      obtain ⟨h1, h2, l1, l2, hsplit, h3⟩ := hsome r hr
      refine ⟨h1, ?_, l1, l2 ++ [d], ?_, h3⟩
      · intro e he hef
        rcases List.mem_append.mp he with he' | he'
        · exact h2 e he' hef
        · rcases List.mem_singleton.mp he' with rfl
          exact absurd hf (by simp [hef])
      · rw [hsplit]
        simp
  · rw [if_neg hf]
    have hdmem : d ∈ pre ++ [d] := List.mem_append.mpr (Or.inr (List.mem_singleton.mpr rfl))
    match hacc : acc with
    | none =>
      -- first non-fixed element becomes the branch domain
      show FbdInv p (pre ++ [d]) (some d)
      have hpre : ∀ e ∈ pre, e.fixed = true := hnone.mp rfl
      constructor
      · constructor
        · intro hc; exact Option.noConfusion hc
        · intro hp
          exact absurd (hp d hdmem) hf
      · intro r hr
        cases hr
        refine ⟨by simpa using hf, ?_, pre, [], rfl, ?_⟩
        · intro e he hef
          rcases List.mem_append.mp he with he' | he'
          · exact absurd (hpre e he') (by simp [hef])
          · rcases List.mem_singleton.mp he' with rfl
            exact fbd_irrefl p e
        · intro e he hef
          exact absurd (hpre e he) (by simp [hef])
    | some r =>
      show FbdInv p (pre ++ [d])
        (if d.count < r.count ∨
            (d.count = r.count ∧ p.patternDegree 0 d.v > p.patternDegree 0 r.v)
         then some d else some r)
      obtain ⟨h1, h2, l1, l2, hsplit, h3⟩ := hsome r rfl
      by_cases hb : fbd_better p d r
      · -- the newcomer is strictly better: replace
        rw [if_pos (by exact hb)]
        constructor
        · constructor
          · intro hc; exact Option.noConfusion hc
          · intro hp
            exact absurd (hp d hdmem) hf
        · intro r' hr'
          cases hr'
          refine ⟨by simpa using hf, ?_, pre, [], rfl, ?_⟩
          · intro e he hef
            rcases List.mem_append.mp he with he' | he'
            · exact (fbd_lex p (h2 e he' hef) hb).1
            · rcases List.mem_singleton.mp he' with rfl
              exact fbd_irrefl p e
          · intro e he hef
            exact (fbd_lex p (h2 e he hef) hb).2
      · -- the newcomer is not better: keep the current best
        rw [if_neg (by exact hb)]
        constructor
        · constructor
          · intro hc; exact Option.noConfusion hc
          · intro hp
            exact absurd (hp d hdmem) hf
        · intro r' hr'
          cases hr'
          refine ⟨h1, ?_, l1, l2 ++ [d], ?_, h3⟩
          · intro e he hef
            rcases List.mem_append.mp he with he' | he'
            · exact h2 e he' hef
            · rcases List.mem_singleton.mp he' with rfl
              exact hb
          · rw [hsplit]
            simp
    
theorem fbd_fold_inv (p : SParams) :
    ∀ (rest pre : List HDomain) (acc : Option HDomain),
      FbdInv p pre acc →
      FbdInv p (pre ++ rest) (rest.foldl (find_branch_domain_step p) acc) := by
  intro rest
  induction rest with
  | nil => intro pre acc h; simpa using h
  | cons d rest ih =>
    intro pre acc h
    have := ih (pre ++ [d]) _ (fbd_step_inv p pre acc d h)
    simpa using this

end GSS

namespace GSS

theorem getD_values_bound (p : SParams) (domains : List HDomain)
    (hb : ∀ d ∈ domains, ∀ x ∈ d.values, x < p.targetSize) (j : Nat) :
    ∀ x ∈ (domains.getD j default).values, x < p.targetSize := by
  by_cases hj : j < domains.length
  · rw [List.getD_eq_getElem domains default hj]
    exact hb _ (List.getElem_mem hj)
  · rw [List.getD_eq_default domains default (Nat.le_of_not_lt hj)]
    intro x hx
    exact absurd hx (List.not_mem_nil x)

/-- On value lists bounded by `target_size`, the source first pass step
(with its early `first_allowed_b >= target_size` exit) agrees with the
claim description: the early exit fires exactly when removing every value
`≤ first_a` would empty the domain of `b` anyway. -/
theorem less_thans_pass1_step_eq (p : SParams) (fd : Nat → Option Nat)
    (domains : List HDomain) (ab : Nat × Nat)
    (hb : ∀ d ∈ domains, ∀ x ∈ d.values, x < p.targetSize) :
    less_thans_pass1_step p fd domains ab =
      less_thans_claim_pass1_step fd domains ab := by
  rcases hfa : fd ab.1 with _ | i <;> rcases hfb : fd ab.2 with _ | j <;>
    simp only [less_thans_pass1_step, less_thans_claim_pass1_step, hfa, hfb]
  rcases hmin : list_min (domains.getD i default).values with _ | first_a <;>
    simp only [hmin]
  have hfilter :
        (fun v => decide (first_a + 1 ≤ v)) = (fun v => decide (first_a < v)) := by
    funext v
    simp [Nat.lt_iff_add_one_le]
  by_cases hts : p.targetSize ≤ first_a + 1
  · rw [if_pos hts]
    have hempty :
        (domains.getD j default).values.filter (fun v => decide (first_a < v)) = [] := by
      rw [List.filter_eq_nil_iff]
      intro x hx
      have := getD_values_bound p domains hb j x hx
      simp only [decide_eq_true_eq]
      omega
    rw [hempty]
    simp
  · rw [if_neg hts, hfilter]

theorem claim_pass1_step_bound (p : SParams) (fd : Nat → Option Nat)
    (domains : List HDomain) (ab : Nat × Nat) (d' : List HDomain)
    (hb : ∀ d ∈ domains, ∀ x ∈ d.values, x < p.targetSize)
    (h : less_thans_claim_pass1_step fd domains ab = some d') :
    ∀ d ∈ d', ∀ x ∈ d.values, x < p.targetSize := by
  rcases hfa : fd ab.1 with _ | i <;> rcases hfb : fd ab.2 with _ | j <;>
    simp only [less_thans_claim_pass1_step, hfa, hfb] at h <;>
    first
      | (cases h; exact hb)
      | skip
  rcases hmin : list_min (domains.getD i default).values with _ | first_a <;>
    simp only [hmin] at h
  · exact Option.noConfusion h
  · split at h
    · exact Option.noConfusion h
    · cases h
      intro d hd
      rcases List.mem_or_eq_of_mem_set hd with hd' | rfl
      · exact hb d hd'
      · intro x hx
        exact getD_values_bound p domains hb j x (List.mem_of_mem_filter hx)

theorem pass1_fold_eq (p : SParams) (fd : Nat → Option Nat) :
    ∀ (pairs : List (Nat × Nat)) (domains : List HDomain),
      (∀ d ∈ domains, ∀ x ∈ d.values, x < p.targetSize) →
      pairs.foldlM (less_thans_pass1_step p fd) domains =
        pairs.foldlM (less_thans_claim_pass1_step fd) domains := by
  intro pairs
  induction pairs with
  | nil => intro domains _; rfl
  | cons ab pairs ih =>
    intro domains hb
    rw [List.foldlM_cons, List.foldlM_cons, less_thans_pass1_step_eq p fd domains ab hb]
    rcases hstep : less_thans_claim_pass1_step fd domains ab with _ | d'
    · rfl
    · exact ih d' (claim_pass1_step_bound p fd domains ab d' hb hstep)

end GSS

namespace GSS

theorem less_thans_eq (p : SParams) (domains : List HDomain)
    (hb : ∀ d ∈ domains, ∀ x ∈ d.values, x < p.targetSize) :
    propagate_less_thans p domains = propagate_less_thans_claim p domains := by
  unfold propagate_less_thans propagate_less_thans_claim
  simp only [pass1_fold_eq p (find_domain_idx domains) p.lessThans domains hb]

/-- Unfolding `decisions_of` over a pushed decision entry. -/
theorem decisions_of_append_decision (trail : List TrailEntry) (a : Assignment)
    (x y : Int) :
    decisions_of (trail ++ [⟨a, true, x, y⟩]) = decisions_of trail ++ [a] := by
  unfold decisions_of
  rw [List.filter_append, List.map_append]
  rfl

theorem expish_ge_one (largest degree : Nat) : 1 ≤ expish largest degree := by
  unfold expish
  have h := pow_pos (show (0 : Int) < 2 by norm_num)
    (max ((degree : Int) - (largest : Int) + 45) 0).toNat
  omega

theorem weights_sum_ge_length (w : Nat → Int) (hw : ∀ x, 1 ≤ w x) :
    ∀ xs : List Nat, (xs.length : Int) ≤ (xs.map w).sum := by
  intro xs
  induction xs with
  | nil => simp
  | cons x xs ih =>
    simp only [List.map_cons, List.sum_cons, List.length_cons]
    have := hw x
    push_cast
    omega

theorem softmax_select_lt (w : Nat → Int) :
    ∀ (xs : List Nat) (s : Int), xs ≠ [] → softmax_select w xs s < xs.length := by
  intro xs
  induction xs with
  | nil => intro s h; exact absurd rfl h
  | cons x tl ih =>
    intro s _
    cases tl with
    | nil => simp [softmax_select]
    | cons y rest =>
      rw [softmax_select]
      split
      · simp
      · have := ih (s - w x) (by simp)
        simp only [List.length_cons] at this ⊢
        omega

theorem getD_cons_set_perm :
    ∀ (rest : List Nat) (i : Nat) (x : Nat), i < rest.length →
      (rest.getD i 0 :: rest.set i x).Perm (x :: rest) := by
  intro rest
  induction rest with
  | nil => intro i x h; simp at h
  | cons r rs ih =>
    intro i x h
    cases i with
    | zero =>
      simp only [List.getD_cons_zero, List.set_cons_zero]
      exact List.Perm.swap x r rs
    | succ j =>
      simp only [List.getD_cons_succ, List.set_cons_succ]
      have h' : j < rs.length := by simpa using h
      exact ((List.Perm.swap r (rs.getD j 0) (rs.set j x)).trans
        ((ih j x h').cons r)).trans (List.Perm.swap x r rs)

theorem swap_to_front_perm (i : Nat) (xs : List Nat) (h : i < xs.length) :
    (swap_to_front i xs).Perm xs := by
  cases xs with
  | nil => simp at h
  | cons x rest =>
    cases i with
    | zero =>
      unfold swap_to_front
      simp
    | succ j =>
      unfold swap_to_front
      simp only [List.getD_cons_succ, List.getD_cons_zero, List.set_cons_zero,
        List.set_cons_succ]
      exact getD_cons_set_perm rest j x (by simpa using h)

theorem softmax_go_perm (w : Nat → Int) (rng : Nat → Int → Int) :
    ∀ (n r : Nat) (total : Int) (xs : List Nat),
      (softmax_go w rng n r total xs).Perm xs := by
  intro n
  induction n with
  | zero => intro r total xs; rw [softmax_go]
  | succ n ih =>
    intro r total xs
    cases xs with
    | nil => rw [softmax_go]
    | cons x rest =>
      rw [softmax_go]
      have hi : softmax_select w (x :: rest) (rng r total) < (x :: rest).length :=
        softmax_select_lt w (x :: rest) _ (by simp)
      have hperm := swap_to_front_perm _ (x :: rest) hi
      rcases hsw : swap_to_front (softmax_select w (x :: rest) (rng r total))
          (x :: rest) with _ | ⟨h0, t⟩
      · rw [hsw] at hperm
        simpa using hperm.length_eq
      · rw [hsw] at hperm
        simp only [List.headD_cons, List.drop_succ_cons, List.drop_zero]
        exact ((ih _ _ t).cons h0).trans hperm

theorem softmax_total_step (w : Nat → Int) (xs : List Nat) (s : Int)
    (hne : xs ≠ []) (total : Int) (htotal : total = (xs.map w).sum) :
    total - w ((swap_to_front (softmax_select w xs s) xs).headD 0) =
      (((swap_to_front (softmax_select w xs s) xs).drop 1).map w).sum := by
  have hi := softmax_select_lt w xs s hne
  have hperm := swap_to_front_perm _ xs hi
  have hsum := (hperm.map w).sum_eq
  rcases hsw : swap_to_front (softmax_select w xs s) xs with _ | ⟨h0, t⟩
  · rw [hsw] at hperm
    cases xs with
    | nil => exact absurd rfl hne
    | cons z zs => simpa using hperm.length_eq
  · rw [hsw] at hsum
    simp only [List.map_cons, List.sum_cons] at hsum
    simp only [List.headD_cons, List.drop_succ_cons, List.drop_zero]
    omega

end GSS

namespace GSS

theorem lackey_delete_not_found (pv tv : Nat) :
    ∀ domains : List HDomain, (∀ d ∈ domains, d.v ≠ pv) →
      lackey_delete pv tv domains = (domains, false, false) := by
  intro domains
  induction domains with
  | nil => intro _; rfl
  | cons d rest ih =>
    intro h
    unfold lackey_delete
    rw [if_neg (h d (List.mem_cons_self d rest)), ih (fun e he => h e (List.mem_cons_of_mem d he))]

theorem lackey_delete_found (pv tv : Nat) :
    ∀ (l1 : List HDomain) (d : HDomain) (l2 : List HDomain),
      (∀ e ∈ l1, e.v ≠ pv) → d.v = pv →
      lackey_delete pv tv (l1 ++ d :: l2) =
        (if tv ∈ d.values then
          (l1 ++ { d with values := d.values.erase tv, count := d.count - 1 } :: l2,
           true, decide (d.count - 1 = 0))
         else (l1 ++ d :: l2, false, false)) := by
  intro l1
  induction l1 with
  | nil =>
    intro d l2 _ hdv
    simp only [List.nil_append]
    unfold lackey_delete
    rw [if_pos hdv]
  | cons e l1 ih =>
    intro d l2 h hdv
    simp only [List.cons_append]
    unfold lackey_delete
    rw [if_neg (h e (List.mem_cons_self e l1)),
      ih d l2 (fun x hx => h x (List.mem_cons_of_mem e hx)) hdv]
    split <;> rfl

theorem lackey_phase_no_call (p : SParams) (useLackey : Bool)
    (trail : List TrailEntry) (domains : List HDomain)
    (h : p.lackey = none ∨ (useLackey || p.sendPartialsToLackey) = false) :
    lackey_phase p useLackey trail domains = (true, domains, none) := by
  unfold lackey_phase
  rcases hlk : p.lackey with _ | lk
  · rfl
  · rcases h with h | h
    · rw [hlk] at h; exact Option.noConfusion h
    · simp only [h]
      rfl

theorem lackey_phase_call (p : SParams) (lk : Lackey) (useLackey : Bool)
    (trail : List TrailEntry) (domains : List HDomain)
    (hlk : p.lackey = some lk)
    (hflag : (useLackey || p.sendPartialsToLackey) = true) :
    (lackey_phase p useLackey trail domains).2.2 =
      some ⟨expand_to_full_result trail, true, false, useLackey⟩ ∧
    ((lackey_phase p useLackey trail domains).1 = false ↔
      ((lk.check (expand_to_full_result trail) true false).2 = false ∨
        (useLackey = true ∧
          (lackey_apply_deletions domains
            (lk.check (expand_to_full_result trail) true false).1).2 = true))) := by
  unfold lackey_phase
  simp only [hlk, hflag, if_true]
  refine ⟨by trivial, ?_⟩
  cases useLackey with
  | false =>
    cases h2 : (lk.check (expand_to_full_result trail) true false).2 <;>
      simp [h2]
  | true =>
    cases h2 : (lk.check (expand_to_full_result trail) true false).2 <;>
      cases h3 : (lackey_apply_deletions domains
        (lk.check (expand_to_full_result trail) true false).1).2 <;>
      simp [h2, h3]

theorem propagate_fixpoint_lackey (p : SParams) (fuel : Nat)
    (domains : List HDomain) (useLackey : Bool) (trail : List TrailEntry)
    (nogoods : List (List Assignment))
    (hu : find_unit_domain domains = none) :
    propagate p (fuel + 1) domains useLackey trail nogoods =
      some ⟨(lackey_phase p useLackey trail domains).1,
            (lackey_phase p useLackey trail domains).2.1, trail⟩ := by
  rw [propagate]
  simp only [hu]

end GSS



namespace GSS

/-- C1 (amended): whenever a call to `restarting_search` returns any result
other than `Satisfiable` or `Aborted` (that is, `SatisfiableButKeepGoing`,
`Unsatisfiable`, `UnsatisfiableAndBackjumpUsingLackey` or `Restart`), the
assignments trail on return is exactly the trail it received — in
particular it has the same length.  (The original claim also listed
`Aborted`; the code returns `Aborted` from inside the candidate loop without
restoring the trail, see the counterexample.) -/
theorem C1_trail_restored (p : SParams) (fuel : Nat) :
    ∀ (domains : List HDomain) (depth : Nat) (st : SState)
      (res : SearchResult) (st' : SState),
      restarting_search p fuel domains depth st = some (res, st') →
      res ≠ SearchResult.Satisfiable → res ≠ SearchResult.Aborted →
      st'.trail = st.trail := by
  induction fuel with
  | zero => intro _ _ _ _ _ h; simp [restarting_search] at h
  | succ fuel ih =>
    intro domains depth st res st' h hs ha
    rw [restarting_search] at h
    split at h
    · cases h; exact absurd rfl ha
    · split at h
      · -- leaf handling: every arm returns with the incoming trail
        rcases hlk : p.lackey with _ | lk <;> simp only [hlk] at h <;>
          repeat' split at h
        all_goals (cases h; rfl)
      · -- a branch domain exists: the candidate loop runs
        rename_i bd _
        unfold search_loop at h
        rw [Option.map_eq_some'] at h
        obtain ⟨r, hr, hfr⟩ := h
        rcases r with ⟨res0, st0', log0⟩
        simp only [Prod.mk.injEq] at hfr
        obtain ⟨rfl, rfl⟩ := hfr
        have hres := search_loop_trail p _ _ _ _ _
          (fun d dep s res1 s1 hh hs1 ha1 => ih d dep s res1 s1 hh hs1 ha1)
          _ _ _ _ _ _ _ _ _ hr hs ha
        rw [hres]
        cases p.valueOrdering <;> rfl

/-- Witness for C1: a concrete `Unsatisfiable` run hands back the trail it
received. -/
theorem C1_trail_restored_witness :
    restarting_search exP 2 [⟨0, [], 0, false⟩] 0 exSt =
      some (.Unsatisfiable, ⟨[], 1, 0, 0, 1, [], 0, 1⟩) ∧
    (⟨[], 1, 0, 0, 1, [], 0, 1⟩ : SState).trail = exSt.trail := by
  refine ⟨by decide, ?_⟩
  exact C1_trail_restored exP 2 [⟨0, [], 0, false⟩] 0 exSt
    .Unsatisfiable ⟨[], 1, 0, 0, 1, [], 0, 1⟩ (by decide) (by decide) (by decide)

/-- Counterexample for C1 as frozen: a run that aborts below a decision
returns `Aborted` with a longer trail than it received (length 2 against an
incoming empty trail), so the trail-restoration list cannot include
`Aborted`. -/
theorem C1_aborted_counterexample :
    (restarting_search exPAbort 4 [⟨0, [0], 1, false⟩] 0 exSt).map
        (fun r => (r.1, r.2.trail.length)) = some (.Aborted, 2) ∧
    (2 : Nat) ≠ exSt.trail.length := by
  exact ⟨by decide, by decide⟩

/-- C2 (amended): on a restart bubbling up, the frame posts — for each
candidate `l` tried strictly before the current one — a nogood consisting
of the decision assignments on the restored trail followed by the literal
`(v, l)`.  It is a single literal only when the trail holds no other
decisions (for instance at the top level); in a deeper frame the ancestor
decisions are part of each posted nogood.  Posting happens only when the
watch store is live. -/
theorem C2_restart_retry_nogoods (p : SParams) (v : Nat)
    (hw : p.mightHaveWatches = true) :
    ∀ (tried : List Nat) (trail : List TrailEntry)
      (nogoods : List (List Assignment)),
      post_nogoods_for_tried p v tried trail nogoods =
        nogoods ++ tried.map (fun l => decisions_of trail ++ [⟨v, l⟩]) := by
  have hpn : ∀ (t : List TrailEntry) (ngs : List (List Assignment)),
      post_nogood p t ngs = ngs ++ [decisions_of t] := by
    intro t ngs
    unfold post_nogood
    rw [if_pos hw]
  intro tried
  induction tried with
  | nil => intro trail nogoods; simp [post_nogoods_for_tried]
  | cons l tried ih =>
    intro trail nogoods
    unfold post_nogoods_for_tried at ih ⊢
    rw [List.foldl_cons, ih, hpn, decisions_of_append_decision]
    simp

/-- Witness for C2: with one prior decision `(0, 0)` on the trail and one
tried value, the posted nogood is `[(0,0), (1,0)]`. -/
theorem C2_restart_retry_nogoods_witness :
    exP.mightHaveWatches = true ∧
    post_nogoods_for_tried exP 1 [0] [⟨⟨0, 0⟩, true, 0, 1⟩] [] =
      [] ++ [0].map (fun l => decisions_of [⟨⟨0, 0⟩, true, 0, 1⟩] ++ [⟨1, l⟩]) :=
  ⟨rfl, C2_restart_retry_nogoods exP 1 rfl [0] [⟨⟨0, 0⟩, true, 0, 1⟩] []⟩

/-- Counterexample for C2 as frozen: in a full run on a concrete instance, a
frame one level below the root sees a restart from its recursive call and
posts the nogood `[(0,0), (1,0)]` — two literals, not the single literal
`[(1,0)]` the claim promises. -/
theorem C2_singleton_counterexample :
    (restarting_search exPRestart 8 exDomsRestart 0 exSt).map
        (fun r => (r.1, r.2.nogoods)) =
      some (.Restart, [[⟨0, 0⟩, ⟨1, 1⟩], [⟨0, 0⟩, ⟨1, 0⟩]]) ∧
    ([⟨0, 0⟩, ⟨1, 0⟩] : List Assignment) ≠ [⟨1, 0⟩] := by
  exact ⟨by decide, by decide⟩

/-- C3 (amended): `search_loop` is the log-erased candidate loop, and in a
loop started with discrepancy 0 (as `restarting_search` starts it), the
decision entry pushed for the `i`-th executed candidate carries
`choice_count` equal to the number of candidates at the branch and
`discrepancy_count` equal to the number of earlier candidates at this
branch whose propagation did not fail — not the plain 0-based index, since
a failed propagation `continue`s without incrementing the count. -/
theorem C3_decision_entry_fields :
    (∀ (p : SParams)
       (recur : List HDomain → Nat → SState → Option (SearchResult × SState))
       (v n : Nat) (domains : List HDomain) (depth : Nat)
       (tried rest : List Nat) (disc : Int) (hitFail useLackey : Bool)
       (st : SState),
       search_loop p recur v n domains depth tried rest disc hitFail
           useLackey st =
         (search_loop_logged p recur v n domains depth tried rest disc hitFail
             useLackey st).map (fun r => (r.1, r.2.1))) ∧
    (∀ (p : SParams)
       (recur : List HDomain → Nat → SState → Option (SearchResult × SState))
       (v n : Nat) (domains : List HDomain) (depth : Nat)
       (tried rest : List Nat) (hitFail useLackey : Bool) (st : SState)
       (res : SearchResult) (st' : SState) (log : List (TrailEntry × Bool)),
       search_loop_logged p recur v n domains depth tried rest 0 hitFail
           useLackey st = some (res, st', log) →
       log.length ≤ rest.length ∧
       ∀ i, i < log.length →
         (log.getD i (⟨⟨0, 0⟩, false, 0, 0⟩, false)).1 =
           ⟨⟨v, rest.getD i 0⟩, true,
             (((log.take i).filter (·.2)).length : Int), (n : Int)⟩) := by
  constructor
  · intro p recur v n domains depth tried rest disc hitFail useLackey st
    rfl
  · intro p recur v n domains depth tried rest hitFail useLackey st res st' log h
    obtain ⟨hlen, hspec⟩ :=
      search_loop_log_spec p recur v n domains depth rest tried 0 hitFail
        useLackey st res st' log h
    refine ⟨hlen, fun i hi => ?_⟩
    simpa using hspec i hi

/-- Witness for C3: a concrete two-candidate loop in which both candidates
survive propagation; the second decision entry carries discrepancy 1. -/
theorem C3_decision_entry_fields_witness :
    search_loop_logged exP exRecur 7 2 [] 0 [] [4, 5] 0 false false exSt =
      some (.Restart, ⟨[], 0, 2, 0, 0, [[]], 1, 0⟩,
        [(⟨⟨7, 4⟩, true, 0, 2⟩, true), (⟨⟨7, 5⟩, true, 1, 2⟩, true)]) ∧
    ((([(⟨⟨7, 4⟩, true, 0, 2⟩, true), (⟨⟨7, 5⟩, true, 1, 2⟩, true)] :
         List (TrailEntry × Bool)).getD 1 (⟨⟨0, 0⟩, false, 0, 0⟩, false)).1 =
      (⟨⟨7, [4, 5].getD 1 0⟩, true,
        (((([(⟨⟨7, 4⟩, true, 0, 2⟩, true), (⟨⟨7, 5⟩, true, 1, 2⟩, true)] :
             List (TrailEntry × Bool)).take 1).filter (·.2)).length : Int),
        (2 : Int)⟩ : TrailEntry)) := by
  refine ⟨by decide, ?_⟩
  exact (C3_decision_entry_fields.2 exP exRecur 7 2 [] 0 [] [4, 5] false false
    exSt .Restart ⟨[], 0, 2, 0, 0, [[]], 1, 0⟩
    ([(⟨⟨7, 4⟩, true, 0, 2⟩, true), (⟨⟨7, 5⟩, true, 1, 2⟩, true)] :
      List (TrailEntry × Bool))
    (by decide)).2 1 (by decide)

/-- Counterexample for C3 as frozen: on a concrete instance the branch on
vertex 1 orders its candidates as `[0, 1]`; candidate 0 fails propagation,
candidate 1 succeeds and leads to `Satisfiable`.  The final trail shows the
decision entry for candidate 1 — the candidate at 0-based index 1
(`[0, 1].getD 1 0 = 1`) — carrying `discrepancy_count = 0`, not 1. -/
theorem C3_discrepancy_counterexample :
    (restarting_search exPDisc 8 exDomsDisc 0 exSt).map
        (fun r => (r.1, r.2.trail)) =
      some (.Satisfiable,
        [⟨⟨0, 0⟩, true, 0, 1⟩, ⟨⟨0, 0⟩, false, -1, -1⟩,
         ⟨⟨1, 1⟩, true, 0, 2⟩, ⟨⟨1, 1⟩, false, -1, -1⟩,
         ⟨⟨2, 2⟩, false, -1, -1⟩]) ∧
    ([0, 1].getD 1 0 = 1) ∧
    ((⟨⟨1, 1⟩, true, 0, 2⟩ : TrailEntry).discrepancy_count ≠ 1) := by
  exact ⟨by decide, by decide, by decide⟩

/-- C4: the comparator `degree_sort` hands to `std::stable_sort` —
`(target_degree(0,a) >= target_degree(0,b)) ^ reverse` — is not
irreflexive on equal degrees, hence not a strict weak ordering; the
`std::stable_sort` precondition is violated (undefined behaviour in the
source) and, under the stable insertion-sort resolution this embedding
fixes, two equal-degree candidates come out in reversed order instead of
keeping their original relative order. -/
theorem C4_degree_sort_comparator_bug :
    degree_sort_comp exPDeg false 0 0 = true ∧
    exPDeg.targetDegree 0 0 = exPDeg.targetDegree 0 1 ∧
    degree_sort exPDeg [0, 1] false = [1, 0] := by
  exact ⟨by decide, by decide, by decide⟩

end GSS

namespace GSS

/-- C5 (amended): after the unit-propagation fixpoint (no unit domain
remains), `propagate` runs the lackey phase on the current trail and
domains.  If no lackey is configured, or neither this frame requested
lackey propagation nor `send_partials_to_lackey` is set, no call is made.
Otherwise `check_solution` is called with the partial mapping,
`partial = true`, `count = false`, and a deletion callback exactly when
this frame requested lackey propagation (when the call happens only because
`send_partials_to_lackey` is set, no deletion callback is passed, and the
requested deletions have no effect); the phase fails exactly when the
verdict is `false` or a wipeout occurred.  The deletion callback removes
`t` from the first domain whose `v = p` when present, reports `true`
exactly when the value was actually removed, and flags a wipeout when the
stored count drops to zero. -/
theorem C5_lackey_phase :
    (∀ (p : SParams) (fuel : Nat) (domains : List HDomain) (useLackey : Bool)
       (trail : List TrailEntry) (nogoods : List (List Assignment)),
       find_unit_domain domains = none →
       propagate p (fuel + 1) domains useLackey trail nogoods =
         some ⟨(lackey_phase p useLackey trail domains).1,
               (lackey_phase p useLackey trail domains).2.1, trail⟩) ∧
    (∀ (p : SParams) (useLackey : Bool) (trail : List TrailEntry)
       (domains : List HDomain),
       p.lackey = none ∨ (useLackey || p.sendPartialsToLackey) = false →
       lackey_phase p useLackey trail domains = (true, domains, none)) ∧
    (∀ (p : SParams) (lk : Lackey) (useLackey : Bool) (trail : List TrailEntry)
       (domains : List HDomain),
       p.lackey = some lk →
       (useLackey || p.sendPartialsToLackey) = true →
       (lackey_phase p useLackey trail domains).2.2 =
         some ⟨expand_to_full_result trail, true, false, useLackey⟩ ∧
       ((lackey_phase p useLackey trail domains).1 = false ↔
         ((lk.check (expand_to_full_result trail) true false).2 = false ∨
           (useLackey = true ∧
             (lackey_apply_deletions domains
               (lk.check (expand_to_full_result trail) true false).1).2 = true)))) ∧
    (∀ (pv tv : Nat) (domains : List HDomain),
       (∀ d ∈ domains, d.v ≠ pv) →
       lackey_delete pv tv domains = (domains, false, false)) ∧
    (∀ (pv tv : Nat) (l1 : List HDomain) (d : HDomain) (l2 : List HDomain),
       (∀ e ∈ l1, e.v ≠ pv) → d.v = pv →
       lackey_delete pv tv (l1 ++ d :: l2) =
         (if tv ∈ d.values then
           (l1 ++ { d with values := d.values.erase tv, count := d.count - 1 } :: l2,
            true, decide (d.count - 1 = 0))
          else (l1 ++ d :: l2, false, false))) :=
  ⟨propagate_fixpoint_lackey, lackey_phase_no_call, lackey_phase_call,
   lackey_delete_not_found, lackey_delete_found⟩

/-- Witness for C5: with a configured lackey and lackey propagation
requested, the recorded call carries the partial mapping, `partial = true`,
`count = false` and a deletion callback. -/
theorem C5_lackey_phase_witness :
    exPLackey.lackey = some exLackey ∧
    (lackey_phase exPLackey true [] [⟨0, [5], 1, false⟩]).2.2 =
      some ⟨expand_to_full_result [], true, false, true⟩ :=
  ⟨rfl, (C5_lackey_phase.2.2.1 exPLackey exLackey true [] [⟨0, [5], 1, false⟩]
      rfl rfl).1⟩

/-- Counterexample for C5 as frozen: when the call is made only because
`send_partials_to_lackey` is set (this frame did not request lackey
propagation), the source passes an empty `Lackey::DeletionFunction{}` — no
deletion callback — while the claim says the described deletion callback is
always supplied. -/
theorem C5_deletion_callback_counterexample :
    exPPartials.sendPartialsToLackey = true ∧
    (lackey_phase exPPartials false [] []).2.2 =
      some ⟨[], true, false, false⟩ ∧
    false ≠ true := by
  exact ⟨rfl, rfl, by decide⟩

/-- C6: `find_branch_domain` returns `none` exactly when every domain is
fixed; otherwise it returns a non-fixed domain `r` such that no non-fixed
domain has strictly smaller count or equal count with strictly larger
pattern degree, and every non-fixed domain before `r` in collection order
differs from `r` on count or degree (so `r` is the first among exact
ties). -/
theorem C6_find_branch_domain (p : SParams) (domains : List HDomain) :
    (find_branch_domain p domains = none ↔ ∀ d ∈ domains, d.fixed = true) ∧
    (∀ r, find_branch_domain p domains = some r →
      r.fixed = false ∧
      (∀ d ∈ domains, d.fixed = false → ¬ fbd_better p d r) ∧
      ∃ l1 l2, domains = l1 ++ r :: l2 ∧
        ∀ d ∈ l1, d.fixed = false →
          ¬ (d.count = r.count ∧ p.patternDegree 0 d.v = p.patternDegree 0 r.v)) := by
  have hbase : FbdInv p [] none := by
    constructor
    · simp
    · intro r hr; exact Option.noConfusion hr
  have h := fbd_fold_inv p domains [] none hbase
  simpa [find_branch_domain, FbdInv] using h

/-- Witness for C6: on a concrete collection the smallest-count tie goes to
the first of the tied domains, and the result is not fixed. -/
theorem C6_find_branch_domain_witness :
    find_branch_domain exP exDomsFbd = some ⟨2, [0], 1, false⟩ ∧
    (⟨2, [0], 1, false⟩ : HDomain).fixed = false :=
  ⟨by decide, ((C6_find_branch_domain exP exDomsFbd).2 ⟨2, [0], 1, false⟩
    (by decide)).1⟩

/-- C7: on domains whose values lie below `target_size` (the bitset width),
`propagate_less_thans` computes exactly what the claim describes — first
pass removing from `b` every value at most the first value of `a` (failing
on an empty `a` or an emptied `b`; the early `first_allowed_b >= target_size`
exit coincides with `b` becoming empty), second pass trimming `a` above the
last value of `b` (failing when `last_b = 0` or `a` empties), absent
endpoints skipped. -/
theorem C7_less_thans (p : SParams) (domains : List HDomain)
    (hb : ∀ d ∈ domains, ∀ x ∈ d.values, x < p.targetSize) :
    propagate_less_thans p domains = propagate_less_thans_claim p domains :=
  less_thans_eq p domains hb

/-- Witness for C7: a concrete pair `(0, 1)` on three target vertices. -/
theorem C7_less_thans_witness :
    (∀ d ∈ exDomsLess, ∀ x ∈ d.values, x < exPLess.targetSize) ∧
    propagate_less_thans exPLess exDomsLess =
      propagate_less_thans_claim exPLess exDomsLess :=
  ⟨by decide, C7_less_thans exPLess exDomsLess (by decide)⟩

/-- C8 (amended): for an empty domains collection, provided the timeout does
not signal an abort, bigraph mode is off, no lackey is configured and
solution counting is off, `restarting_search` immediately returns
`Satisfiable`: the trail (hence the mapping) is exactly what it received,
`nodes` is incremented once and `propagations` is untouched — no
branching, no propagation, no recursion.  (With counting on it returns
`SatisfiableButKeepGoing` instead; see the counterexample.) -/
theorem C8_empty_pattern (p : SParams) (fuel depth : Nat) (st : SState)
    (hab : p.abortSeq st.time = false) (hbig : p.bigraph = false)
    (hlk : p.lackey = none) (hcount : p.countSolutions = false) :
    restarting_search p (fuel + 1) [] depth st =
      some (.Satisfiable, { st with time := st.time + 1, nodes := st.nodes + 1 }) := by
  rw [restarting_search]
  simp only [hab, hbig, hlk, hcount, Bool.false_eq_true, if_false,
    Bool.false_and, Bool.and_eq_true]
  rfl

/-- Witness for C8: the concrete empty collection under the neutral
configuration. -/
theorem C8_empty_pattern_witness :
    restarting_search exP 3 [] 5 exSt =
      some (.Satisfiable, { exSt with time := exSt.time + 1, nodes := exSt.nodes + 1 }) :=
  C8_empty_pattern exP 2 5 exSt rfl rfl rfl rfl

/-- Counterexample for C8 as frozen: with solution counting enabled, the
empty collection yields `SatisfiableButKeepGoing`, not `Satisfiable`. -/
theorem C8_count_mode_counterexample :
    (restarting_search exPCount 2 [] 0 exSt).map (fun r => r.1) =
      some .SatisfiableButKeepGoing ∧
    SearchResult.SatisfiableButKeepGoing ≠ SearchResult.Satisfiable := by
  exact ⟨by decide, by decide⟩

/-- C9: `propagate` only appends to the trail — one non-decision entry
`{assignment, false, -1, -1}` per committed unit assignment — and removes
nothing even when it fails; taking the pre-call length (the resize done by
the caller `restarting_search`, not by `propagate`) recovers the pre-call
trail exactly. -/
theorem C9_propagate_trail (p : SParams) (fuel : Nat) (domains : List HDomain)
    (useLackey : Bool) (trail : List TrailEntry)
    (nogoods : List (List Assignment)) (out : PropOut)
    (h : propagate p fuel domains useLackey trail nogoods = some out) :
    (∃ pushed, out.trail = trail ++ pushed ∧
       ∀ e ∈ pushed, e.is_decision = false ∧ e.discrepancy_count = -1 ∧
         e.choice_count = -1) ∧
    out.trail.take trail.length = trail := by
  obtain ⟨pushed, hp, hf⟩ := propagate_trail_extends p fuel _ _ _ _ _ h
  refine ⟨⟨pushed, hp, hf⟩, ?_⟩
  rw [hp]
  exact List.take_left trail pushed

/-- Witness for C9: a concrete unit propagation pushes exactly one
non-decision entry and the pre-call trail is recovered by `take`. -/
theorem C9_propagate_trail_witness :
    propagate exP 2 [⟨0, [4], 1, false⟩] false [] [] =
      some ⟨true, [⟨0, [4], 1, true⟩], [⟨⟨0, 4⟩, false, -1, -1⟩]⟩ ∧
    (⟨true, [⟨0, [4], 1, true⟩], [⟨⟨0, 4⟩, false, -1, -1⟩]⟩ : PropOut).trail.take
        ([] : List TrailEntry).length = ([] : List TrailEntry) := by
  refine ⟨by decide, ?_⟩
  exact (C9_propagate_trail exP 2 [⟨0, [4], 1, false⟩] false [] []
    ⟨true, [⟨0, [4], 1, true⟩], [⟨⟨0, 4⟩, false, -1, -1⟩]⟩ (by decide)).2

/-- C10: the softmax-biased shuffle is well-defined and permutes its input:
every weight `2^max(degree - largest_target_degree + 45, 0)` is at least 1,
so the sum of weights of any candidate list bounds its length from below
(the sampling range `[1, total]` is nonempty while candidates remain); the
linear scan always selects an index inside the remaining suffix; each round
swaps a valid element to the front, so the result is a permutation of the
input; and subtracting the selected weight keeps `total` equal to the sum
of the weights of the remaining suffix. -/
theorem C10_softmax_shuffle :
    (∀ largest degree : Nat, 1 ≤ expish largest degree) ∧
    (∀ (w : Nat → Int) (xs : List Nat) (s : Int), xs ≠ [] →
       softmax_select w xs s < xs.length) ∧
    (∀ (p : SParams) (xs : List Nat),
       (xs.length : Int) ≤
         (xs.map (fun c => expish p.largestTargetDegree (p.targetDegree 0 c))).sum) ∧
    (∀ (w : Nat → Int) (rng : Nat → Int → Int) (n r : Nat) (total : Int)
       (xs : List Nat), (softmax_go w rng n r total xs).Perm xs) ∧
    (∀ (p : SParams) (r : Nat) (xs : List Nat),
       ((softmax_shuffle p r xs).1).Perm xs) ∧
    (∀ (w : Nat → Int) (xs : List Nat) (s : Int), xs ≠ [] →
       ∀ total : Int, total = (xs.map w).sum →
       total - w ((swap_to_front (softmax_select w xs s) xs).headD 0) =
         (((swap_to_front (softmax_select w xs s) xs).drop 1).map w).sum) := by
  refine ⟨expish_ge_one, softmax_select_lt, ?_, softmax_go_perm, ?_, ?_⟩
  · intro p xs
    exact weights_sum_ge_length _ (fun x => expish_ge_one _ _) xs
  · intro p r xs
    unfold softmax_shuffle
    exact softmax_go_perm _ _ _ _ _ _
  · intro w xs s hne total htotal
    exact softmax_total_step w xs s hne total htotal

/-- Witness for C10: concrete weights, a concrete selection bound, and a
concrete shuffled permutation. -/
theorem C10_softmax_shuffle_witness :
    ([3, 4] : List Nat) ≠ [] ∧
    softmax_select (fun _ => 1) [3, 4] 0 < 2 ∧
    ((softmax_shuffle exP 0 [3, 4]).1).Perm [3, 4] := by
  refine ⟨by decide, ?_, C10_softmax_shuffle.2.2.2.2.1 exP 0 [3, 4]⟩
  simpa using C10_softmax_shuffle.2.1 (fun _ => 1) [3, 4] 0 (by decide)

end GSS
